import Mathlib

/-!
Shallow embedding of the content-processing layer of the Newtons-Repository
Flask application (src/app.py), together with theorems checking the
specification's claims about it.

Python strings are modelled as `List Char`; Python dictionaries holding the
catalog are modelled as association lists in insertion order; the filesystem
is a parameter mapping resolved paths (or raw filenames) to optional file
contents.
-/

namespace NewtonsRepo

/-- Python strings are modelled as lists of characters. -/
abbrev Str := List Char

/-- Convert a Lean string literal to the model's string type. -/
def chars (s : String) : Str := s.toList

/-- The ASCII whitespace characters recognised by Python's `str.split()`,
`str.strip()` and the regex class `\s` (the model restricts to ASCII). -/
def pyIsSpace (c : Char) : Bool :=
  c = ' ' ∨ c = '\t' ∨ c = '\n' ∨ c = '\r' ∨ c = '\x0b' ∨ c = '\x0c'

/-- Python `str.strip()`: remove leading and trailing whitespace. -/
def pyStrip (s : Str) : Str :=
  ((s.dropWhile pyIsSpace).reverse.dropWhile pyIsSpace).reverse

/-- Helper for `pySplitWs`: accumulates the current word (reversed) while
scanning. Words are maximal runs of non-whitespace characters. -/
def pySplitWsAux : Str → Str → List Str
  | [], acc => if acc = [] then [] else [acc.reverse]
  | c :: cs, acc =>
    if pyIsSpace c then
      (if acc = [] then [] else [acc.reverse]) ++ pySplitWsAux cs []
    else
      pySplitWsAux cs (c :: acc)

/-- Python `text.split()` with no separator: split on whitespace runs,
discarding empty pieces. -/
def pySplitWs (s : Str) : List Str := pySplitWsAux s []

/-- Number of whitespace-delimited words: `len(text.split())`. -/
def wordCount (s : Str) : Nat := (pySplitWs s).length

/-- Python's `round` on the exact rational `num / den` (`den > 0`): round to
nearest, halves to even (IEEE-754 / Python 3 `round` semantics; for the word
counts arising here the binary double `num / den` rounds identically). -/
def pyRoundDiv (num den : Nat) : Nat :=
  let q := num / den
  let r := num % den
  if 2 * r < den then q
  else if den < 2 * r then q + 1
  else if q % 2 = 0 then q else q + 1

/-- app.py `calculate_reading_time`: `max(1, round(len(text.split()) / 200))`. -/
def calculate_reading_time (text : Str) : Nat :=
  max 1 (pyRoundDiv (wordCount text) 200)

/-- Sentence-splitting regex of `get_excerpt`:
Python `re.split(r'(?<=[.!?])\s+', text)`. A split point is a maximal
whitespace run whose preceding character is one of `.`, `!`, `?`; the run is
consumed. `acc` is the current sentence reversed, so `acc.head?` is the
character the lookbehind inspects; `skipWs = true` while the whitespace run
that caused a split is being consumed. -/
def splitSentAux (skipWs : Bool) (acc : Str) : Str → List Str
  | [] => [acc.reverse]
  | c :: cs =>
    if skipWs then
      if pyIsSpace c then splitSentAux true acc cs
      else splitSentAux false (c :: acc) cs
    else
      if pyIsSpace c ∧
          (acc.head? = some '.' ∨ acc.head? = some '!' ∨ acc.head? = some '?') then
        acc.reverse :: splitSentAux true [] cs
      else
        splitSentAux false (c :: acc) cs

/-- Sentences of `get_excerpt`: `re.split(r'(?<=[.!?])\s+', text.strip())`. -/
def excerptSentences (text : Str) : List Str :=
  splitSentAux false [] (pyStrip text)

/-- Python `' '.join(pieces)`. -/
def joinSpace (pieces : List Str) : Str := List.intercalate [' '] pieces

/-- The joined-but-untruncated excerpt: `' '.join(sentences[:sentence_count])`. -/
def excerptJoined (text : Str) (sentence_count : Nat) : Str :=
  joinSpace ((excerptSentences text).take sentence_count)

/-- app.py `get_excerpt`: join the first `sentence_count` sentences, then
truncate to 197 characters plus `...` if the result exceeds 200 characters. -/
def get_excerpt (text : Str) (sentence_count : Nat) : Str :=
  let excerpt := excerptJoined text sentence_count
  if 200 < excerpt.length then excerpt.take 197 ++ chars "..." else excerpt

/-- Python `text.split("\n\n")`: split on each non-overlapping occurrence of
two consecutive newline characters, scanning left to right. `acc` is the
current piece reversed. -/
def splitNNAux (acc : Str) : Str → List Str
  | [] => [acc.reverse]
  | [c] => [(c :: acc).reverse]
  | c1 :: c2 :: rest =>
    if c1 = '\n' ∧ c2 = '\n' then acc.reverse :: splitNNAux [] rest
    else splitNNAux (c1 :: acc) (c2 :: rest)

/-- Python `text.split("\n\n")`. -/
def splitNN (text : Str) : List Str := splitNNAux [] text

/-- The block classification used by `parse_content`. -/
inductive BlockType where
  | heading
  | paragraph
deriving DecidableEq, Repr

/-- One block of `parse_content`: the dict `{"type": ..., "content": ...}`. -/
structure ContentBlock where
  type : BlockType
  content : Str
deriving DecidableEq, Repr

/-- The `\s+\d+` part of the heading regex: the first character is whitespace
and the first character after the maximal leading whitespace run is an ASCII
digit (a greedy `\s+` with backtracking matches exactly in this case). -/
def wsThenDigit (s : Str) : Bool :=
  match s with
  | [] => false
  | d :: _ =>
    pyIsSpace d &&
      (match s.dropWhile pyIsSpace with
       | [] => false
       | e :: _ => e.isDigit)

/-- Python regex `re.match(r'^Part\s+\d+', para, re.IGNORECASE)` as a Bool:
the string starts with the four letters of "Part" in either case, then one or
more whitespace characters, then at least one ASCII digit. -/
def matchPartHeading : Str → Bool
  | c0 :: c1 :: c2 :: c3 :: rest =>
    ((c0 = 'P' ∨ c0 = 'p') ∧ (c1 = 'A' ∨ c1 = 'a') ∧ (c2 = 'R' ∨ c2 = 'r') ∧
      (c3 = 'T' ∨ c3 = 't') : Bool) && wsThenDigit rest
  | _ => false

/-- Python `para.endswith('.')`. -/
def endsWithDot (para : Str) : Bool := para.getLast? = some '.'

/-- The heading test of `parse_content`:
`re.match(r'^Part\s+\d+', para, re.IGNORECASE) or (len(para) < 80 and not para.endswith('.'))`. -/
def isHeading (para : Str) : Bool :=
  matchPartHeading para ∨ (para.length < 80 ∧ ¬ endsWithDot para)

/-- The retained paragraphs of `parse_content`:
`[p.strip() for p in text.split("\n\n") if p.strip()]`. -/
def retainedParas (text : Str) : List Str :=
  ((splitNN text).map pyStrip).filter (fun p => p ≠ [])

/-- app.py `parse_content`: classify each retained paragraph as heading or
paragraph, in order. -/
def parse_content (text : Str) : List ContentBlock :=
  (retainedParas text).map (fun para =>
    { type := if isHeading para then .heading else .paragraph, content := para })

/-- Python `s.split(sep)` for a single-character separator `sep`. -/
def splitChar (sep : Char) : Str → List Str
  | [] => [[]]
  | c :: cs =>
    if c = sep then [] :: splitChar sep cs
    else
      match splitChar sep cs with
      | h :: t => (c :: h) :: t
      | [] => [[c]]

/-- Numeric value of a string of ASCII digits. -/
def digitsToNat (s : Str) : Nat := s.foldl (fun n c => 10 * n + (c.toNat - 48)) 0

/-- Gregorian leap-year test, as used by Python's `datetime`. -/
def isLeap (y : Nat) : Bool := y % 4 = 0 ∧ (y % 100 ≠ 0 ∨ y % 400 = 0)

/-- Number of days in a month, as validated by Python's `datetime`. -/
def daysInMonth (y m : Nat) : Nat :=
  if m = 2 then (if isLeap y then 29 else 28)
  else if m = 4 ∨ m = 6 ∨ m = 9 ∨ m = 11 then 30
  else 31

/-- A parsed calendar date: (year, month, day). -/
abbrev Date := Nat × Nat × Nat

/-- Python `datetime.strptime(s, "%Y-%m-%d")`, returning `none` where Python
raises `ValueError`: the string must be exactly four digits, a dash, one or
two digits, a dash, one or two digits, and the values must form a valid
calendar date with year at least 1 (`datetime.MINYEAR`). -/
def parseDate (s : Str) : Option Date :=
  match splitChar '-' s with
  | [ys, ms, ds] =>
    if ys.length = 4 ∧ ys.all Char.isDigit ∧
       1 ≤ ms.length ∧ ms.length ≤ 2 ∧ ms.all Char.isDigit ∧
       1 ≤ ds.length ∧ ds.length ≤ 2 ∧ ds.all Char.isDigit then
      let y := digitsToNat ys
      let m := digitsToNat ms
      let d := digitsToNat ds
      if 1 ≤ y ∧ 1 ≤ m ∧ m ≤ 12 ∧ 1 ≤ d ∧ d ≤ daysInMonth y m then
        some (y, m, d)
      else none
    else none
  | _ => none

/-- Strict comparison of parsed dates: `datetime` compares (year, month, day)
lexicographically. -/
def dateLt (a b : Date) : Bool :=
  a.1 < b.1 ∨ (a.1 = b.1 ∧ (a.2.1 < b.2.1 ∨ (a.2.1 = b.2.1 ∧ a.2.2 < b.2.2)))

/-- An article record of the catalog (a row of `BLOG_CATEGORIES[...]["articles"]`). -/
structure Article where
  id : Str
  title : Str
  date : Str
  filename : Str
  part : Int
deriving DecidableEq, Repr

/-- A category record of the catalog (a value of `BLOG_CATEGORIES`). -/
structure Category where
  id : Str
  name : Str
  subtitle : Str
  description : Str
  image : Str
  articles : List Article
deriving DecidableEq, Repr

/-- The catalog: the `BLOG_CATEGORIES` dict, modelled as an association list
in insertion order (Python dicts preserve insertion order and have unique
keys). -/
abbrev Catalog := List (Str × Category)

/-- Python `BLOG_CATEGORIES.get(category_id)`: look up the (unique) entry
with the given key. -/
def dictGet (catalog : Catalog) (key : Str) : Option Category :=
  (catalog.find? (fun p => p.1 = key)).map (fun p => p.2)

/-- First article of the Morecambe category of `BLOG_CATEGORIES`. -/
def mcArticle1 : Article :=
  { id := chars "the-journey-begins", title := chars "How did we fall so far?",
    date := chars "2024-01-15", filename := chars "article1.txt", part := 1 }

/-- Second article of the Morecambe category of `BLOG_CATEGORIES`. -/
def mcArticle2 : Article :=
  { id := chars "first-season-struggles", title := chars "The struggle is real, or is it?",
    date := chars "2024-02-20", filename := chars "article2.txt", part := 2 }

/-- The single category of `BLOG_CATEGORIES`. -/
def mcCategory : Category :=
  { id := chars "morecambe-fm26"
    name := chars "Morecambe FC"
    subtitle := chars "FM26 Save"
    description := chars "Following Morecambe FC from administration to glory."
    image := chars "morecambe-logo.png"
    articles :=
      [ mcArticle1, mcArticle2,
        { id := chars "transfer-window-rebuild", title := chars "Crossing the line",
          date := chars "2024-03-10", filename := chars "article3.txt", part := 3 },
        { id := chars "turning-point", title := chars "Out with the old and in with the older",
          date := chars "2024-04-05", filename := chars "article4.txt", part := 4 },
        { id := chars "promotion-push", title := chars "The Crucible",
          date := chars "2024-05-12", filename := chars "article5.txt", part := 5 },
        { id := chars "glory-day", title := chars "Disaster and Triumph",
          date := chars "2024-06-01", filename := chars "article6.txt", part := 6 } ] }

/-- The static `BLOG_CATEGORIES` dict of app.py. -/
def BLOG_CATEGORIES : Catalog := [(chars "morecambe-fm26", mcCategory)]

/-- An abstract content store: maps a filename to the contents
`get_article_content` returns for it (`none` models a missing file, i.e.
`FileNotFoundError` caught and turned into `None`). -/
abbrev Store := Str → Option Str

/-- Python truthiness of the `content` variable: `None` and the empty string
are falsy, every other string is truthy. The guards
`... if content else ...` in app.py test exactly this. -/
def truthy (content : Option Str) : Option Str :=
  match content with
  | some [] => none
  | c => c

/-- The pair (reading_time, excerpt) computed from a read result:
`calculate_reading_time(content) if content else 0` and
`get_excerpt(content) if content else ""` (`get_excerpt` is called with its
default `sentence_count=2`). -/
def contentFields (content : Option Str) : Nat × Str :=
  match truthy content with
  | some c => (calculate_reading_time c, get_excerpt c 2)
  | none => (0, [])

/-- The enriched article dict built by `get_category_articles`:
`{**article, "reading_time": ..., "excerpt": ..., "category_id": category_id}`. -/
structure ArticleView where
  article : Article
  reading_time : Nat
  excerpt : Str
  category_id : Str
deriving DecidableEq, Repr

/-- The enrichment step of `get_category_articles` for one article. -/
def enrichArticle (fs : Store) (category_id : Str) (article : Article) : ArticleView :=
  let rt_ex := contentFields (fs article.filename)
  { article := article, reading_time := rt_ex.1, excerpt := rt_ex.2,
    category_id := category_id }

/-- Ascending-by-part comparison used to model
`sorted(articles, key=lambda x: x["part"])` (Python's sort is stable;
`List.mergeSort` is stable as well). -/
def partLE (a b : ArticleView) : Bool := a.article.part ≤ b.article.part

/-- app.py `get_category_articles`: `(None, [])` for an unknown id, otherwise
the category together with its enriched articles sorted ascending by part. -/
def get_category_articles (fs : Store) (catalog : Catalog) (category_id : Str) :
    Option Category × List ArticleView :=
  match dictGet catalog category_id with
  | none => (none, [])
  | some category =>
    (some category,
      ((category.articles).map (enrichArticle fs category_id)).mergeSort partLE)

/-- app.py `get_prev_next_articles`: one pass over the category's articles,
recording the last article whose part is `current_part - 1` as prev and the
last whose part is `current_part + 1` as next (the source's `elif`). -/
def prevNextStep (current_part : Int) (pn : Option Article × Option Article)
    (article : Article) : Option Article × Option Article :=
  if article.part = current_part - 1 then (some article, pn.2)
  else if article.part = current_part + 1 then (pn.1, some article)
  else pn

/-- app.py `get_prev_next_articles`. -/
def get_prev_next_articles (catalog : Catalog) (category_id : Str)
    (current_part : Int) : Option Article × Option Article :=
  match dictGet catalog category_id with
  | none => (none, none)
  | some category =>
    category.articles.foldl (prevNextStep current_part) (none, none)

/-- The iteration space of `get_latest_article`: all (category, article)
pairs, categories in catalog insertion order, articles in list order. -/
def catalogPairs (catalog : Catalog) : List (Category × Article) :=
  catalog.flatMap (fun p => p.2.articles.map (fun a => (p.2, a)))

/-- The scanning loop of `get_latest_article`. The accumulator holds
`(latest, latest_date, latest_category)`; `Except.error ()` models the
`ValueError` Python's `strptime` raises on a malformed date (propagated,
not caught). The replacement test is strict: `article_date > latest_date`. -/
def scanLatest :
    List (Category × Article) → Option (Article × Date × Category) →
    Except Unit (Option (Article × Date × Category))
  | [], acc => .ok acc
  | (cat, a) :: rest, acc =>
    match parseDate a.date with
    | none => .error ()
    | some d =>
      match acc with
      | none => scanLatest rest (some (a, d, cat))
      | some (la, ld, lc) =>
        if dateLt ld d then scanLatest rest (some (a, d, cat))
        else scanLatest rest (some (la, ld, lc))

/-- The enriched result dict of `get_latest_article`:
`{**latest, "category_id": ..., "category_name": ..., "excerpt": ...,
"reading_time": ...}`. -/
structure LatestView where
  article : Article
  category_id : Str
  category_name : Str
  excerpt : Str
  reading_time : Nat
deriving DecidableEq, Repr

/-- The enrichment step of `get_latest_article`. -/
def enrichLatest (fs : Store) (cat : Category) (a : Article) : LatestView :=
  let rt_ex := contentFields (fs a.filename)
  { article := a, category_id := cat.id, category_name := cat.name,
    excerpt := rt_ex.2, reading_time := rt_ex.1 }

/-- app.py `get_latest_article`: scan every article of every category keeping
the first article attaining the maximum date, then enrich it. `Except.error`
models a propagated `ValueError` from `strptime`. -/
def get_latest_article (fs : Store) (catalog : Catalog) :
    Except Unit (Option LatestView) :=
  (scanLatest (catalogPairs catalog) none).map
    (fun acc => acc.map (fun best => enrichLatest fs best.2.2 best.1))

/-- POSIX `os.path.join` for two components: if the second is absolute it
replaces the first; otherwise they are joined with a `/` unless the first is
empty or already ends in `/`. -/
def osJoin (a b : Str) : Str :=
  if b.head? = some '/' then b
  else if a = [] ∨ a.getLast? = some '/' then a ++ b
  else a ++ '/' :: b

/-- Resolution of a path string to its list of components as the operating
system resolves it when opening: split on `/`, drop empty components and
`.`, and let `..` remove the previous component (at the root it is a no-op). -/
def resolvePath (s : Str) : List Str :=
  (splitChar '/' s).foldl
    (fun stack comp =>
      if comp = [] ∨ comp = ['.'] then stack
      else if comp = ['.', '.'] then stack.dropLast
      else stack ++ [comp])
    []

/-- A disk: maps resolved absolute paths (component lists) to file contents. -/
abbrev Disk := List Str → Option Str

/-- app.py `get_article_content`: join `app.root_path`, `"articles"` and the
given filename with `os.path.join` and open the resolved path, returning
`None` only when the file does not exist. No validation of `filename` is
performed. -/
def get_article_content (disk : Disk) (root_path : Str) (filename : Str) :
    Option Str :=
  disk (resolvePath (osJoin (osJoin root_path (chars "articles")) filename))

/-- Modelled from the claim (refinement target, not source code): the
validation the repository's own test suite (`test_security_fixes.py`,
`test_path_traversal_fix`) requires of `get_article_content`: the filename
consists only of alphanumeric characters, dashes and dots. -/
def claimedValidFilename (filename : Str) : Bool :=
  filename ≠ [] ∧ filename.all (fun c => c.isAlphanum ∨ c = '-' ∨ c = '.')

/-! ## Concrete data used by claims and witnesses -/

/-- A store in which every file is missing. -/
def fsNone : Store := fun _ => none

/-- A text of `n` words: n repetitions of a space followed by the letter a. -/
def repeatedWords (n : Nat) : Str := (List.replicate n [' ', 'a']).flatten

/-- The part-1 article of the gap example category. -/
def c13a1 : Article :=
  { id := chars "a1", title := chars "A1", date := chars "2024-01-01",
    filename := chars "f1.txt", part := 1 }

/-- The part-3 article of the gap example category. -/
def c13a3 : Article :=
  { id := chars "a3", title := chars "A3", date := chars "2024-03-01",
    filename := chars "f3.txt", part := 3 }

/-- A category with articles at parts 1 and 3 only (the gap at part 2 matches
the end-to-end example of the specification). -/
def c13Category : Category :=
  { id := chars "c1", name := chars "C One", subtitle := [], description := [],
    image := [], articles := [c13a1, c13a3] }

/-- The catalog holding only the gap example category. -/
def catC13 : Catalog := [(chars "c1", c13Category)]

/-- A catalog with one category that has no articles at all. -/
def emptyArticlesCatalog : Catalog :=
  [(chars "c1",
    { id := chars "c1", name := chars "C One", subtitle := [], description := [],
      image := [], articles := [] })]

/-- A disk holding a file `/app/secret.txt` outside the articles directory. -/
def attackDisk : Disk := fun p =>
  if p = [chars "app", chars "secret.txt"] then some (chars "TOP SECRET") else none

/-! ## Helper lemmas -/

theorem dropWhile_eq_nil_of_all {p : Char → Bool} {l : Str}
    (h : ∀ c ∈ l, p c) : l.dropWhile p = [] := by
  induction l with
  | nil => rfl
  | cons c cs ih =>
    simp only [List.dropWhile_cons]
    rw [if_pos (h c (List.mem_cons_self c cs))]
    exact ih (fun x hx => h x (List.mem_cons_of_mem c hx))

theorem pyStrip_eq_nil_of_all {l : Str} (h : ∀ c ∈ l, pyIsSpace c) :
    pyStrip l = [] := by
  unfold pyStrip
  rw [dropWhile_eq_nil_of_all h]
  simp

theorem pyStrip_not_all_space {l : Str} (hne : pyStrip l ≠ []) :
    ¬ ∀ c ∈ pyStrip l, pyIsSpace c := by
  intro hall
  unfold pyStrip at hne hall
  set r := (l.dropWhile pyIsSpace).reverse with hr
  rcases hd : r.dropWhile pyIsSpace with _ | ⟨c, t⟩
  · rw [hd] at hne; simp at hne
  · have hhead := List.head?_dropWhile_not pyIsSpace r
    rw [hd] at hhead
    simp only [List.head?_cons] at hhead
    have hc : c ∈ (r.dropWhile pyIsSpace).reverse := by rw [hd]; simp
    exact absurd (hall c hc) (by simp [hhead])

theorem pySplitWsAux_words {t acc : Str}
    (hacc : ∀ c ∈ acc, pyIsSpace c = false) :
    ∀ w ∈ pySplitWsAux t acc, w ≠ [] ∧ ∀ c ∈ w, pyIsSpace c = false := by
  induction t generalizing acc with
  | nil =>
    intro w hw
    unfold pySplitWsAux at hw
    by_cases hae : acc = []
    · rw [if_pos hae] at hw
      exact absurd hw (List.not_mem_nil w)
    · rw [if_neg hae] at hw
      rcases List.mem_cons.mp hw with h | h
      · subst h
        exact ⟨by simpa using hae, fun c hc => hacc c (List.mem_reverse.mp hc)⟩
      · exact absurd h (List.not_mem_nil w)
  | cons c0 cs ih =>
    intro w hw
    unfold pySplitWsAux at hw
    by_cases hs : pyIsSpace c0
    · rw [if_pos hs] at hw
      rcases List.mem_append.mp hw with h | h
      · by_cases hae : acc = []
        · rw [if_pos hae] at h
          exact absurd h (List.not_mem_nil w)
        · rw [if_neg hae] at h
          rcases List.mem_cons.mp h with h2 | h2
          · subst h2
            exact ⟨by simpa using hae,
              fun c hc => hacc c (List.mem_reverse.mp hc)⟩
          · exact absurd h2 (List.not_mem_nil w)
      · exact ih (by simp) w h
    · rw [if_neg hs] at hw
      refine ih ?_ w hw
      intro c hc
      rcases List.mem_cons.mp hc with h | h
      · subst h
        simpa using hs
      · exact hacc c h

/-! ## Claim C3 -/

/-- C3: for every text, `calculate_reading_time text` equals
`max 1 (round (wordCount text / 200))` with round-half-to-even, where the
word count is the number of whitespace-delimited tokens (each token is
non-empty and whitespace-free); hence the result is at least 1 for every
input, and the empty text yields exactly 1. -/
theorem c3_reading_time_formula (text : Str) :
    calculate_reading_time text = max 1 (pyRoundDiv (wordCount text) 200) ∧
    (∀ w ∈ pySplitWs text, w ≠ [] ∧ ∀ c ∈ w, pyIsSpace c = false) ∧
    1 ≤ calculate_reading_time text ∧
    calculate_reading_time [] = 1 :=
  ⟨rfl, pySplitWsAux_words (by simp), le_max_left 1 _, by decide⟩

/-- Witness for C3 at a concrete text and token. -/
theorem c3_reading_time_formula_witness :
    chars "hello" ≠ [] ∧ ∀ c ∈ chars "hello", pyIsSpace c = false :=
  (c3_reading_time_formula (chars "hello world")).2.1 (chars "hello") (by decide)

/-! ## Claim C10 -/

/-- C10: `calculate_reading_time` rounds halves to even: a text of exactly
500 words (500 / 200 = 2.5) yields 2, and a text of exactly 300 words (1.5)
also yields 2. -/
theorem c10_round_half_even (text : Str) :
    (wordCount text = 500 → calculate_reading_time text = 2) ∧
    (wordCount text = 300 → calculate_reading_time text = 2) := by
  constructor <;> intro h <;>
    simp only [calculate_reading_time, h] <;> decide

set_option maxRecDepth 8192 in
/-- Witness for C10 at concrete texts of 500 and 300 words. -/
theorem c10_round_half_even_witness :
    calculate_reading_time (repeatedWords 500) = 2 ∧
    calculate_reading_time (repeatedWords 300) = 2 :=
  ⟨(c10_round_half_even (repeatedWords 500)).1 (by decide),
   (c10_round_half_even (repeatedWords 300)).2 (by decide)⟩

/-! ## Claim C4 -/

/-- C4: `get_excerpt` never returns more than 200 characters; when the joined
first sentences exceed 200 characters the result is their first 197
characters followed by three dots; the empty text yields the empty excerpt
for every sentence count. -/
theorem c4_excerpt_truncation (text : Str) (n : Nat) :
    (get_excerpt text n).length ≤ 200 ∧
    (200 < (excerptJoined text n).length →
      get_excerpt text n = (excerptJoined text n).take 197 ++ chars "...") ∧
    get_excerpt [] n = [] := by
  refine ⟨?_, ?_, ?_⟩
  · unfold get_excerpt
    by_cases h : 200 < (excerptJoined text n).length
    · rw [if_pos h]
      have h197 : (List.take 197 (excerptJoined text n)).length = 197 := by
        rw [List.length_take]; omega
      rw [List.length_append, h197]
      decide
    · rw [if_neg h]; omega
  · intro h
    unfold get_excerpt
    rw [if_pos h]
  · unfold get_excerpt excerptJoined excerptSentences pyStrip
    cases n with
    | zero => decide
    | succ m =>
      simp only [List.dropWhile_nil, List.reverse_nil, splitSentAux,
        List.take_succ_cons, List.take_nil, joinSpace]
      decide

set_option maxRecDepth 8192 in
/-- Witness for C4: a single 250-character sentence is truncated to exactly
197 characters plus three dots. -/
theorem c4_excerpt_truncation_witness :
    200 < (excerptJoined (List.replicate 250 'a') 2).length ∧
    get_excerpt (List.replicate 250 'a') 2 =
      (excerptJoined (List.replicate 250 'a') 2).take 197 ++ chars "..." :=
  ⟨by decide, (c4_excerpt_truncation (List.replicate 250 'a') 2).2.1 (by decide)⟩

/-! ## Claim C1 -/

/-- C1: the content-store read operation performs no filename validation.
With the application root at `/app` and a file `/app/secret.txt` lying
outside the articles directory, the filename `../secret.txt` (which contains
characters outside the alphanumeric/dash/dot set, and whose resolved path
escapes `/app/articles`) is not rejected: `get_article_content` opens and
returns the escaped file instead of treating it as absent. This contradicts
the repository's own test `test_path_traversal_fix`, which requires the
validation to be present in app.py. -/
theorem c1_path_traversal_unvalidated :
    get_article_content attackDisk (chars "/app") (chars "../secret.txt") =
      some (chars "TOP SECRET") ∧
    claimedValidFilename (chars "../secret.txt") = false ∧
    ([chars "app", chars "articles"]).isPrefixOf
      (resolvePath (osJoin (osJoin (chars "/app") (chars "articles"))
        (chars "../secret.txt"))) = false := by
  refine ⟨?_, by decide, by decide⟩
  show attackDisk _ = _
  decide

theorem splitNNAux_subset {s : Str} {acc t : Str}
    (hs : s ∈ splitNNAux acc t) : ∀ c ∈ s, c ∈ acc ∨ c ∈ t := by
  induction acc, t using splitNNAux.induct with
  | case1 acc =>
    rw [splitNNAux] at hs
    rcases List.mem_cons.mp hs with h | h
    · subst h; intro c hc; exact Or.inl (List.mem_reverse.mp hc)
    · exact absurd h (List.not_mem_nil s)
  | case2 acc c0 =>
    rw [splitNNAux] at hs
    rcases List.mem_cons.mp hs with h | h
    · subst h
      intro c hc
      rcases List.mem_cons.mp (List.mem_reverse.mp hc) with h2 | h2
      · exact Or.inr (by simp [h2])
      · exact Or.inl h2
    · exact absurd h (List.not_mem_nil s)
  | case3 acc c1 c2 rest hcond ih =>
    rw [splitNNAux, if_pos hcond] at hs
    rcases List.mem_cons.mp hs with h | h
    · subst h; intro c hc; exact Or.inl (List.mem_reverse.mp hc)
    · intro c hc
      rcases ih h c hc with h2 | h2
      · exact absurd h2 (List.not_mem_nil c)
      · exact Or.inr (by simp [h2])
  | case4 acc c1 c2 rest hcond ih =>
    rw [splitNNAux, if_neg hcond] at hs
    intro c hc
    rcases ih hs c hc with h2 | h2
    · rcases List.mem_cons.mp h2 with h3 | h3
      · exact Or.inr (by simp [h3])
      · exact Or.inl h3
    · exact Or.inr (List.mem_cons_of_mem c1 h2)

theorem retainedParas_shape {text : Str} {para : Str}
    (h : para ∈ retainedParas text) :
    para ≠ [] ∧ ∃ q ∈ splitNN text, para = pyStrip q := by
  unfold retainedParas at h
  rw [List.mem_filter] at h
  obtain ⟨hmem, hne⟩ := h
  rw [List.mem_map] at hmem
  obtain ⟨q, hq, rfl⟩ := hmem
  exact ⟨by simpa using hne, q, hq, rfl⟩

/-! ## Claim C6 -/

/-- C6: `parse_content` splits on double newlines, trims each piece and
discards empty pieces, so no returned block has empty or whitespace-only
content; whitespace-only input yields no blocks at all. -/
theorem c6_parse_content_no_empty_blocks (text : Str) :
    (∀ b ∈ parse_content text,
      b.content ≠ [] ∧ ¬ (∀ c ∈ b.content, pyIsSpace c)) ∧
    ((∀ c ∈ text, pyIsSpace c) → parse_content text = []) := by
  constructor
  · intro b hb
    unfold parse_content at hb
    rw [List.mem_map] at hb
    obtain ⟨para, hmem, rfl⟩ := hb
    obtain ⟨hne, q, _, rfl⟩ := retainedParas_shape hmem
    exact ⟨hne, fun hall => pyStrip_not_all_space hne hall⟩
  · intro hws
    unfold parse_content
    rw [List.map_eq_nil_iff]
    unfold retainedParas
    rw [List.filter_eq_nil_iff]
    intro para hpara
    rw [List.mem_map] at hpara
    obtain ⟨q, hq, rfl⟩ := hpara
    have : ∀ c ∈ q, pyIsSpace c := by
      intro c hc
      rcases splitNNAux_subset hq c hc with h | h
      · exact absurd h (List.not_mem_nil c)
      · exact hws c h
    simp [pyStrip_eq_nil_of_all this]

/-- Witness for C6: a concrete block of a concrete text is non-empty, and a
whitespace-only text parses to no blocks. -/
theorem c6_parse_content_no_empty_blocks_witness :
    (({ type := BlockType.heading, content := chars "A" } : ContentBlock).content ≠ [] ∧
      ¬ (∀ c ∈ ({ type := BlockType.heading, content := chars "A" } : ContentBlock).content,
          pyIsSpace c)) ∧
    parse_content (chars " \n\n \n ") = [] :=
  ⟨(c6_parse_content_no_empty_blocks (chars "A\n\nB")).1
      { type := BlockType.heading, content := chars "A" } (by decide),
   (c6_parse_content_no_empty_blocks (chars " \n\n \n ")).2 (by decide)⟩

/-! ## Claim C5 -/

/-- C5: a retained block of `parse_content` is classified heading exactly
when its content matches the case-insensitive "Part number" prefix pattern,
or is shorter than 80 characters and does not end with a period; and the
blocks carry the retained paragraphs in their order of occurrence. -/
theorem c5_heading_classification (text : Str) :
    (parse_content text).map ContentBlock.content = retainedParas text ∧
    ∀ b ∈ parse_content text,
      (b.type = BlockType.heading ↔
        (matchPartHeading b.content = true ∨
          (b.content.length < 80 ∧ b.content.getLast? ≠ some '.'))) := by
  constructor
  · unfold parse_content
    rw [List.map_map]
    exact List.map_id _
  · intro b hb
    unfold parse_content at hb
    rw [List.mem_map] at hb
    obtain ⟨para, hmem, rfl⟩ := hb
    simp only
    by_cases h : isHeading para = true
    · rw [if_pos h]
      simp only [isHeading, endsWithDot, decide_eq_true_eq, Bool.decide_or,
        Bool.or_eq_true, decide_eq_true_eq, Bool.decide_and, Bool.and_eq_true,
        Bool.not_eq_true', decide_eq_false_iff_not] at h
      simpa using h
    · rw [if_neg h]
      simp only [isHeading, endsWithDot, decide_eq_true_eq, Bool.decide_or,
        Bool.or_eq_true, decide_eq_true_eq, Bool.decide_and, Bool.and_eq_true,
        Bool.not_eq_true', decide_eq_false_iff_not] at h
      constructor
      · intro hcontr; exact absurd hcontr (by simp)
      · intro hrhs; exact absurd (by simpa using hrhs) h

/-- Witness for C5 at a concrete text and block. -/
theorem c5_heading_classification_witness :
    (parse_content (chars "Part 1 Intro\n\nDone.")).map ContentBlock.content =
      retainedParas (chars "Part 1 Intro\n\nDone.") ∧
    (({ type := BlockType.heading, content := chars "Part 1 Intro" } : ContentBlock).type
        = BlockType.heading ↔
      (matchPartHeading (chars "Part 1 Intro") = true ∨
        ((chars "Part 1 Intro").length < 80 ∧
          (chars "Part 1 Intro").getLast? ≠ some '.'))) :=
  ⟨(c5_heading_classification (chars "Part 1 Intro\n\nDone.")).1,
   (c5_heading_classification (chars "Part 1 Intro\n\nDone.")).2
      { type := BlockType.heading, content := chars "Part 1 Intro" } (by decide)⟩

theorem prevNext_foldl (cp : Int) (l : List Article)
    (acc : Option Article × Option Article) :
    l.foldl (prevNextStep cp) acc =
      ((l.reverse.find? (fun a => a.part = cp - 1)).or acc.1,
       (l.reverse.find? (fun a => a.part = cp + 1)).or acc.2) := by
  induction l generalizing acc with
  | nil => simp
  | cons a t ih =>
    rw [List.foldl_cons, ih]
    rw [List.reverse_cons, List.find?_append, List.find?_append]
    rw [Option.or_assoc, Option.or_assoc]
    have hne : ¬ (cp - 1 = cp + 1) := by omega
    unfold prevNextStep
    by_cases h1 : a.part = cp - 1
    · rw [if_pos h1]
      have h2 : ¬ (a.part = cp + 1) := by omega
      simp [List.find?, h1, h2, hne]
    · rw [if_neg h1]
      by_cases h2 : a.part = cp + 1
      · rw [if_pos h2]
        have hne2 : ¬ (cp + 1 = cp - 1) := by omega
        simp [List.find?, h1, h2, hne2]
      · rw [if_neg h2]
        simp [List.find?, h1, h2]

theorem find?_reverse_of_nodup {l : List Article} {v : Int}
    (h : (l.map Article.part).Nodup) :
    l.reverse.find? (fun a => a.part = v) = l.find? (fun a => a.part = v) := by
  induction l with
  | nil => rfl
  | cons a t ih =>
    rw [List.map_cons, List.nodup_cons] at h
    obtain ⟨hnotin, hnd⟩ := h
    rw [List.reverse_cons, List.find?_append]
    by_cases hv : a.part = v
    · have htnone : t.find? (fun a => a.part = v) = none := by
        rw [List.find?_eq_none]
        intro x hx
        simp only [decide_eq_true_eq]
        intro hxv
        apply hnotin
        rw [hv, ← hxv]
        exact List.mem_map_of_mem Article.part hx
      have hrevnone : t.reverse.find? (fun a => a.part = v) = none := by
        rw [List.find?_eq_none] at htnone ⊢
        intro x hx
        exact htnone x (List.mem_reverse.mp hx)
      rw [hrevnone]
      simp [List.find?, hv]
    · rw [ih hnd]
      simp [List.find?, hv]

/-! ## Claim C2 -/

/-- C2: `get_prev_next_articles` returns (absent, absent) for an unknown
category; for a known category whose parts are unique it returns the article
with part `current_part - 1` as prev and the one with part
`current_part + 1` as next, each independently (absent when no such article
exists); concretely, in a category with parts 1 and 3 the query at part 3
yields (absent, absent); and an article holding the lowest part of its
category always gets prev = absent. -/
theorem c2_prev_next_adjacent (catalog : Catalog) (cid : Str) (cp : Int) :
    (dictGet catalog cid = none →
      get_prev_next_articles catalog cid cp = (none, none)) ∧
    (∀ cat, dictGet catalog cid = some cat →
      (cat.articles.map Article.part).Nodup →
      get_prev_next_articles catalog cid cp =
        (cat.articles.find? (fun a => a.part = cp - 1),
         cat.articles.find? (fun a => a.part = cp + 1))) ∧
    get_prev_next_articles catC13 (chars "c1") 3 = (none, none) ∧
    (∀ cat a, dictGet catalog cid = some cat → a ∈ cat.articles →
      (∀ b ∈ cat.articles, a.part ≤ b.part) →
      (get_prev_next_articles catalog cid a.part).1 = none) := by
  refine ⟨?_, ?_, by decide, ?_⟩
  · intro h
    unfold get_prev_next_articles
    rw [h]
  · intro cat hcat hnd
    unfold get_prev_next_articles
    rw [hcat]
    dsimp only
    rw [prevNext_foldl]
    rw [find?_reverse_of_nodup hnd, find?_reverse_of_nodup hnd]
    simp [Option.or_none]
  · intro cat a hcat hmem hlow
    unfold get_prev_next_articles
    rw [hcat]
    dsimp only
    rw [prevNext_foldl]
    simp only [Option.or_none]
    rw [List.find?_eq_none]
    intro x hx
    simp only [decide_eq_true_eq]
    intro hxv
    have := hlow x (List.mem_reverse.mp hx)
    omega

/-- Witness for C2 on the repository catalog (six unique parts 1..6): at
part 1 prev is absent and next is the part-2 article; and the lowest-part
article of the category gets prev = absent. -/
theorem c2_prev_next_adjacent_witness :
    get_prev_next_articles BLOG_CATEGORIES (chars "morecambe-fm26") 1 =
      (mcCategory.articles.find? (fun a => a.part = 0),
       mcCategory.articles.find? (fun a => a.part = 2)) ∧
    (get_prev_next_articles BLOG_CATEGORIES (chars "morecambe-fm26")
      mcArticle1.part).1 = none :=
  ⟨(c2_prev_next_adjacent BLOG_CATEGORIES (chars "morecambe-fm26") 1).2.1
      mcCategory (by decide) (by decide),
   (c2_prev_next_adjacent BLOG_CATEGORIES (chars "morecambe-fm26")
      mcArticle1.part).2.2.2
      mcCategory mcArticle1 (by decide) (by decide) (by decide)⟩

/-! ## Claim C9 -/

/-- C9: `get_prev_next_articles` does not require an article at
`current_part` itself: for a known category with unique parts and no article
at the queried part, the part-minus-one and part-plus-one articles are still
found; concretely, parts {1, 3} queried at 2 give prev = the part-1 article
and next = the part-3 article. -/
theorem c9_prev_next_no_current (catalog : Catalog) (cid : Str) (cp : Int) :
    (∀ cat, dictGet catalog cid = some cat →
      (cat.articles.map Article.part).Nodup →
      (∀ a ∈ cat.articles, a.part ≠ cp) →
      get_prev_next_articles catalog cid cp =
        (cat.articles.find? (fun a => a.part = cp - 1),
         cat.articles.find? (fun a => a.part = cp + 1))) ∧
    (get_prev_next_articles catC13 (chars "c1") 2 =
      (some c13a1, some c13a3)) := by
  refine ⟨?_, by decide⟩
  intro cat hcat hnd _
  unfold get_prev_next_articles
  rw [hcat]
  dsimp only
  rw [prevNext_foldl]
  rw [find?_reverse_of_nodup hnd, find?_reverse_of_nodup hnd]
  simp [Option.or_none]

/-- Witness for C9: instantiated on the parts-{1,3} category at part 2,
where no article has part 2. -/
theorem c9_prev_next_no_current_witness :
    get_prev_next_articles catC13 (chars "c1") 2 =
      (c13Category.articles.find? (fun a => a.part = 1),
       c13Category.articles.find? (fun a => a.part = 3)) :=
  (c9_prev_next_no_current catC13 (chars "c1") 2).1
    c13Category (by decide) (by decide) (by decide)

theorem truthy_some {c : Str} (h : c ≠ []) : truthy (some c) = some c := by
  cases c with
  | nil => exact absurd rfl h
  | cons x xs => rfl

theorem enrichArticle_article (fs : Store) (cid : Str) (a : Article) :
    (enrichArticle fs cid a).article = a := rfl

/-! ## Claim C8 -/

/-- C8: `get_category_articles` returns (absent, empty) for an unknown
category id; for a known category it returns the category and one enriched
view per article — reading time 0 and empty excerpt when the content file is
missing, the computed reading time and excerpt when non-empty content is
read — sorted ascending by part. -/
theorem c8_category_articles (fs : Store) (catalog : Catalog) (cid : Str) :
    (dictGet catalog cid = none →
      get_category_articles fs catalog cid = (none, [])) ∧
    ∀ cat, dictGet catalog cid = some cat →
      (get_category_articles fs catalog cid).1 = some cat ∧
      ((get_category_articles fs catalog cid).2.map ArticleView.article).Perm
        cat.articles ∧
      (get_category_articles fs catalog cid).2.Pairwise
        (fun x y => x.article.part ≤ y.article.part) ∧
      ∀ v ∈ (get_category_articles fs catalog cid).2,
        v.category_id = cid ∧
        (fs v.article.filename = none → v.reading_time = 0 ∧ v.excerpt = []) ∧
        (∀ content, fs v.article.filename = some content → content ≠ [] →
          v.reading_time = calculate_reading_time content ∧
          v.excerpt = get_excerpt content 2) := by
  constructor
  · intro h
    unfold get_category_articles
    rw [h]
  · intro cat hcat
    unfold get_category_articles
    rw [hcat]
    dsimp only
    have htr : ∀ a b c : ArticleView, partLE a b → partLE b c → partLE a c := by
      intro a b c
      simp only [partLE, decide_eq_true_eq]
      omega
    have htot : ∀ a b : ArticleView, partLE a b || partLE b a := by
      intro a b
      simp only [partLE, Bool.or_eq_true, decide_eq_true_eq]
      omega
    refine ⟨rfl, ?_, ?_, ?_⟩
    · have h2 := (List.mergeSort_perm
        ((cat.articles).map (enrichArticle fs cid)) partLE).map ArticleView.article
      have h3 : List.map (ArticleView.article ∘ enrichArticle fs cid) cat.articles
          = cat.articles := by
        rw [show ArticleView.article ∘ enrichArticle fs cid = id from
          funext (fun a => rfl)]
        exact List.map_id _
      rw [List.map_map, h3] at h2
      exact h2
    · exact (List.sorted_mergeSort htr htot _).imp
        (fun hab => by simpa [partLE] using hab)
    · intro v hv
      rw [List.mem_mergeSort, List.mem_map] at hv
      obtain ⟨a, _, rfl⟩ := hv
      refine ⟨rfl, ?_, ?_⟩
      · intro hnone
        rw [enrichArticle_article] at hnone
        simp [enrichArticle, contentFields, truthy, hnone]
      · intro content hsome hne
        rw [enrichArticle_article] at hsome
        simp [enrichArticle, contentFields, hsome, truthy_some hne]

/-- Witness for C8: an unknown id yields (absent, empty); the known id
yields its category. -/
theorem c8_category_articles_witness :
    get_category_articles fsNone BLOG_CATEGORIES (chars "nonexistent") =
      (none, []) ∧
    (get_category_articles fsNone BLOG_CATEGORIES
      (chars "morecambe-fm26")).1 = some mcCategory :=
  ⟨(c8_category_articles fsNone BLOG_CATEGORIES (chars "nonexistent")).1
      (by decide),
   ((c8_category_articles fsNone BLOG_CATEGORIES (chars "morecambe-fm26")).2
      mcCategory (by decide)).1⟩

/-- A freestanding example category mirroring the specification's
latest-article example (articles dated 2024-01-15 and 2024-06-01). -/
def exJan : Article :=
  { id := chars "e1", title := chars "E1", date := chars "2024-01-15",
    filename := chars "e1.txt", part := 1 }

/-- The later-dated article of the latest-article example. -/
def exJune : Article :=
  { id := chars "e2", title := chars "E2", date := chars "2024-06-01",
    filename := chars "e2.txt", part := 2 }

/-- The category of the latest-article example. -/
def exCategory : Category :=
  { id := chars "ex", name := chars "Ex", subtitle := [], description := [],
    image := [], articles := [exJan, exJune] }

/-- The catalog of the latest-article example. -/
def exCatalog : Catalog := [(chars "ex", exCategory)]

theorem dateLt_trans {a b c : Date} (h1 : dateLt a b = true)
    (h2 : dateLt b c = true) : dateLt a c = true := by
  simp only [dateLt, decide_eq_true_eq] at h1 h2 ⊢
  omega

theorem dateLt_not_lt_trans {x y z : Date} (h1 : dateLt x y = false)
    (h2 : dateLt x z = true) : dateLt y z = true := by
  simp only [dateLt, decide_eq_true_eq, decide_eq_false_iff_not] at h1 h2 ⊢
  omega

theorem scanLatest_snoc (l : List (Category × Article)) (cat : Category)
    (a : Article) (acc : Option (Article × Date × Category)) :
    scanLatest (l ++ [(cat, a)]) acc =
      (scanLatest l acc).bind (fun r =>
        match parseDate a.date with
        | none => .error ()
        | some d =>
          .ok (match r with
               | none => some (a, d, cat)
               | some (la, ld, lc) =>
                 if dateLt ld d then some (a, d, cat)
                 else some (la, ld, lc))) := by
  induction l generalizing acc with
  | nil =>
    cases hpd : parseDate a.date with
    | none =>
      cases acc <;> simp [scanLatest, hpd, Except.bind]
    | some d =>
      cases acc with
      | none => simp [scanLatest, hpd, Except.bind]
      | some trip =>
        obtain ⟨la, ld, lc⟩ := trip
        by_cases hlt : dateLt ld d = true <;>
          simp [scanLatest, hpd, Except.bind, hlt]
  | cons p t ih =>
    obtain ⟨c0, a0⟩ := p
    cases hpd0 : parseDate a0.date with
    | none =>
      simp [scanLatest, hpd0, Except.bind]
    | some d0 =>
      cases acc with
      | none =>
        simp only [List.cons_append, scanLatest, hpd0]
        exact ih _
      | some trip =>
        obtain ⟨la, ld, lc⟩ := trip
        by_cases hlt : dateLt ld d0 = true <;>
          · simp only [List.cons_append, scanLatest, hpd0, hlt, if_true, if_false,
              Bool.not_eq_true]
            exact ih _

/-- The article at the returned position is the first one attaining the
maximum parsed date of the scanned pair list: every earlier article has a
strictly smaller date and no later article has a strictly greater one. -/
def firstMaxAt (pairs : List (Category × Article)) (c : Category) (a : Article)
    (d : Date) : Prop :=
  ∃ l1 l2, pairs = l1 ++ (c, a) :: l2 ∧ parseDate a.date = some d ∧
    (∀ q ∈ l1, ∀ dq, parseDate q.2.date = some dq → dateLt dq d = true) ∧
    (∀ q ∈ l2, ∀ dq, parseDate q.2.date = some dq → dateLt d dq = false)

theorem scanLatest_spec (pairs : List (Category × Article))
    (hp : ∀ p ∈ pairs, (parseDate p.2.date).isSome) :
    (pairs = [] ∧ scanLatest pairs none = .ok none) ∨
    (∃ c a d, scanLatest pairs none = .ok (some (a, d, c)) ∧
      firstMaxAt pairs c a d) := by
  induction pairs using List.reverseRecOn with
  | nil => exact Or.inl ⟨rfl, rfl⟩
  | append_singleton l x ih =>
    obtain ⟨cat, a⟩ := x
    have hpa : (parseDate a.date).isSome = true := hp (cat, a) (by simp)
    obtain ⟨d, hd⟩ : ∃ d, parseDate a.date = some d :=
      Option.isSome_iff_exists.mp hpa
    have hpl : ∀ p ∈ l, (parseDate p.2.date).isSome :=
      fun p hpmem => hp p (by simp [hpmem])
    rcases ih hpl with ⟨hnil, hscan⟩ | ⟨c0, a0, d0, hscan, hfm⟩
    · subst hnil
      refine Or.inr ⟨cat, a, d, ?_, [], [], by simp, hd, by simp, by simp⟩
      rw [scanLatest_snoc, hscan]
      simp [Except.bind, hd]
    · obtain ⟨l1, l2, hdecomp, hd0, hl1, hl2⟩ := hfm
      by_cases hlt : dateLt d0 d = true
      · refine Or.inr ⟨cat, a, d, ?_, l, [], by simp, hd, ?_, by simp⟩
        · rw [scanLatest_snoc, hscan]
          simp [Except.bind, hd, hlt]
        · intro q hq dq hdq
          subst hdecomp
          rcases List.mem_append.mp hq with h | h
          · exact dateLt_trans (hl1 q h dq hdq) hlt
          · rcases List.mem_cons.mp h with h2 | h2
            · subst h2
              rw [hd0] at hdq
              obtain rfl : d0 = dq := by injection hdq
              exact hlt
            · exact dateLt_not_lt_trans (hl2 q h2 dq hdq) hlt
      · have hltf : dateLt d0 d = false := Bool.not_eq_true _ |>.mp hlt
        refine Or.inr ⟨c0, a0, d0, ?_, l1, l2 ++ [(cat, a)], ?_, hd0, hl1, ?_⟩
        · rw [scanLatest_snoc, hscan]
          simp [Except.bind, hd, hltf]
        · rw [hdecomp]
          simp
        · intro q hq dq hdq
          rcases List.mem_append.mp hq with h | h
          · exact hl2 q h dq hdq
          · have hqx : q = (cat, a) := by simpa using h
            subst hqx
            rw [hd] at hdq
            obtain rfl : d = dq := by injection hdq
            exact hltf

/-- The outcome `get_latest_article` guarantees once every date parses: the
result is absent exactly when the catalog holds no articles at all, and a
present result is the enrichment of the first article attaining the maximum
date in catalog iteration order. -/
def latestOutcome (fs : Store) (catalog : Catalog) (r : Option LatestView) :
    Prop :=
  (r = none ↔ catalogPairs catalog = []) ∧
  (∀ v, r = some v →
    ∃ c a d, v = enrichLatest fs c a ∧ firstMaxAt (catalogPairs catalog) c a d)

/-! ## Claim C7 -/

/-- C7 counterexample: the claim says the result is absent only when the
catalog is empty, but a non-empty catalog whose single category has no
articles also yields an absent result. -/
theorem c7_latest_counterexample :
    get_latest_article fsNone emptyArticlesCatalog = .ok none ∧
    emptyArticlesCatalog ≠ [] :=
  ⟨rfl, by simp [emptyArticlesCatalog]⟩

/-- C7 (amended): when every catalog date parses, `get_latest_article`
returns the first article attaining the maximum date in catalog iteration
order, enriched with category id, category name, reading time and excerpt;
the result is absent exactly when the catalog contains no articles (rather
than only when the catalog itself is empty). Concretely, the example catalog
with articles dated 2024-01-15 and 2024-06-01 yields the 2024-06-01 article. -/
theorem c7_latest_article_amended :
    (∀ fs catalog,
      (∀ p ∈ catalogPairs catalog, (parseDate p.2.date).isSome) →
      ∃ r, get_latest_article fs catalog = .ok r ∧ latestOutcome fs catalog r) ∧
    get_latest_article fsNone exCatalog =
      .ok (some (enrichLatest fsNone exCategory exJune)) := by
  constructor
  · intro fs catalog hp
    rcases scanLatest_spec (catalogPairs catalog) hp with
      ⟨hnil, hscan⟩ | ⟨c, a, d, hscan, hfm⟩
    · refine ⟨none, ?_, ?_, ?_⟩
      · unfold get_latest_article
        rw [hscan]
        rfl
      · exact iff_of_true rfl hnil
      · intro v hv
        exact absurd hv (by simp)
    · have hne : catalogPairs catalog ≠ [] := by
        obtain ⟨l1, l2, hdecomp, _⟩ := hfm
        rw [hdecomp]
        simp
      refine ⟨some (enrichLatest fs c a), ?_, ?_, ?_⟩
      · unfold get_latest_article
        rw [hscan]
        rfl
      · exact iff_of_false (by simp) hne
      · intro v hv
        obtain rfl : enrichLatest fs c a = v := by injection hv
        exact ⟨c, a, d, rfl, hfm⟩
  · rfl

/-- Witness for C7 (amended) on the example catalog, whose two dates parse. -/
theorem c7_latest_article_amended_witness :
    ∃ r, get_latest_article fsNone exCatalog = .ok r ∧
      latestOutcome fsNone exCatalog r :=
  c7_latest_article_amended.1 fsNone exCatalog (by decide)

end NewtonsRepo
